import Mathlib

/-!
Shallow embedding of the load-balancer dispatcher (`load-balancer/main.go`).

Machine integers are modelled as follows: the Go `uint64` round-robin cursor
is a `Nat` reduced modulo `2 ^ 64` (the Go addition wraps), Go `int`/`int64`
fields are `Int` (their arithmetic in the modelled operations stays far from
the 64-bit bounds except where a claim is exactly about such a bound, in
which case the bound constant appears explicitly, e.g. the `MaxInt64`
sentinel of `leastConnections`).  Selection functions return the *index* of
the chosen worker in the registry list, rendering the Go pointer identity.
Randomness (`rand.Intn`) is an oracle parameter constrained by hypotheses.
-/

namespace LB

/-- One backend worker (struct `Worker` in `main.go`). -/
structure Worker where
  name : String
  url : String
  color : String
  weight : Int
  maxLoad : Int
  healthy : Bool
  currentLoad : Int
  enabled : Bool
  totalRequests : Int
  failedRequests : Int
  circuitOpen : Bool
  consecFailures : Int
deriving DecidableEq, Repr

/-- The load balancer state (struct `LoadBalancer`), without the
websocket client set, which no claim mentions. -/
structure LoadBalancer where
  workers : List Worker
  algorithm : String
  roundRobinIdx : Nat
  circuitThreshold : Int
deriving DecidableEq, Repr

/-- Modulus of the Go `uint64` round-robin cursor. -/
def UINT64_MOD : Nat := 18446744073709551616

/-- The `int64(1<<63 - 1)` sentinel used by `leastConnections`. -/
def MAX_INT64 : Int := 9223372036854775807

/-- Eligibility test used by every selector:
`w.Healthy && w.Enabled && !w.CircuitOpen`. -/
def eligible (w : Worker) : Bool :=
  w.healthy && w.enabled && !w.circuitOpen

/-- NewLoadBalancer: empty worker list, round-robin, threshold 3. -/
def NewLoadBalancer : LoadBalancer :=
  { workers := [], algorithm := "round-robin", roundRobinIdx := 0,
    circuitThreshold := 3 }

/-- The worker value appended by `AddWorker`. -/
def initWorker (name url color : String) (weight maxLoad : Int) : Worker :=
  { name := name, url := url, color := color, weight := weight,
    maxLoad := maxLoad, healthy := true, currentLoad := 0, enabled := true,
    totalRequests := 0, failedRequests := 0, circuitOpen := false,
    consecFailures := 0 }

/-- AddWorker appends a worker with `Healthy=true, Enabled=true` and all
other operational fields zero. -/
def AddWorker (lb : LoadBalancer) (name url color : String)
    (weight maxLoad : Int) : LoadBalancer :=
  { lb with workers := lb.workers ++ [initWorker name url color weight maxLoad] }

/-! Selectors.  Each mirrors the corresponding scan in `main.go` and returns
the index of the chosen worker. -/

/-- Scan of `roundRobin`: for `i = 0 .. n-1` try index `(startIdx + i) % n`,
returning the first eligible index. -/
def roundRobinScan (ws : List Worker) (startIdx : Nat) : Option Nat :=
  (List.range ws.length).findSome? fun i =>
    let idx := (startIdx + i) % ws.length
    match ws[idx]? with
    | some w => if eligible w then some idx else none
    | none => none

/-- The `roundRobin` selector: atomically increment the `uint64` cursor
(wrapping at `2^64`), then scan from the new cursor value. -/
def roundRobinSel (lb : LoadBalancer) : Option Nat × LoadBalancer :=
  let startIdx := (lb.roundRobinIdx + 1) % UINT64_MOD
  (roundRobinScan lb.workers startIdx, { lb with roundRobinIdx := startIdx })

/-- Loop body of `leastConnections`: skip ineligible workers, keep the
first strict improvement of the running minimum (initially `MaxInt64`). -/
def lcGo : List Worker → Nat → Option Nat → Int → Option Nat
  | [], _, sel, _ => sel
  | w :: rest, pos, sel, minLoad =>
    if eligible w = false then lcGo rest (pos + 1) sel minLoad
    else if w.currentLoad < minLoad then
      lcGo rest (pos + 1) (some pos) w.currentLoad
    else lcGo rest (pos + 1) sel minLoad

/-- The `leastConnections` selector. -/
def leastConnections (ws : List Worker) : Option Nat :=
  lcGo ws 0 none MAX_INT64

/-- First pass of `weighted`: sum of the weights of eligible workers. -/
def totalWeight (ws : List Worker) : Int :=
  ws.foldl (fun acc w => if eligible w then acc + w.weight else acc) 0

/-- Fallback loop of `weighted` (`totalWeight == 0`): first eligible index. -/
def firstEligibleIdx : List Worker → Nat → Option Nat
  | [], _ => none
  | w :: rest, pos =>
    if eligible w then some pos else firstEligibleIdx rest (pos + 1)

/-- Second pass of `weighted`: walk the workers, skipping ineligible ones,
subtracting each weight from `r`; return the first index where `r` drops
below zero. -/
def weightedWalkIdx : List Worker → Int → Nat → Option Nat
  | [], _, _ => none
  | w :: rest, r, pos =>
    if eligible w then
      if r - w.weight < 0 then some pos
      else weightedWalkIdx rest (r - w.weight) (pos + 1)
    else weightedWalkIdx rest r (pos + 1)

/-- The `weighted` selector, with the `rand.Intn(totalWeight)` draw passed
in as `r`. -/
def weightedSel (ws : List Worker) (r : Int) : Option Nat :=
  if totalWeight ws = 0 then firstEligibleIdx ws 0
  else weightedWalkIdx ws r 0

/-- Count pass of `random`. -/
def countEligible (ws : List Worker) : Nat :=
  ws.foldl (fun c w => if eligible w then c + 1 else c) 0

/-- Walk pass of `random`: return the `r`-th eligible worker's index. -/
def randomWalkIdx : List Worker → Nat → Nat → Option Nat
  | [], _, _ => none
  | w :: rest, r, pos =>
    if eligible w then
      if r = 0 then some pos else randomWalkIdx rest (r - 1) (pos + 1)
    else randomWalkIdx rest r (pos + 1)

/-- The `random` selector, with the `rand.Intn(count)` draw passed as `r`. -/
def randomSel (ws : List Worker) (r : Nat) : Option Nat :=
  if countEligible ws = 0 then none else randomWalkIdx ws r 0

/-- SelectWorker: dispatch on the algorithm string; any unknown string falls
through to round-robin (the `default` case of the Go switch).  `r` is the
random oracle used by `weighted` and `random`. -/
def SelectWorker (lb : LoadBalancer) (r : Nat) : Option Nat × LoadBalancer :=
  if lb.workers.length = 0 then (none, lb)
  else if lb.algorithm = "least-connections" then (leastConnections lb.workers, lb)
  else if lb.algorithm = "weighted" then (weightedSel lb.workers (Int.ofNat r), lb)
  else if lb.algorithm = "random" then (randomSel lb.workers r, lb)
  else roundRobinSel lb

/-! Circuit/health tracker.  The four outcome sources of `main.go`:
`checkWorker`'s probe success/failure branches and `handleTask`'s forward
success/failure branches. -/

/-- An outcome fed to the tracker. -/
inductive TrackerInput where
  | probeOk
  | probeFail
  | forwardOk
  | forwardFail
deriving DecidableEq, Repr

/-- Failure inputs (probe or forward). -/
def isFailure : TrackerInput → Bool
  | .probeFail => true
  | .forwardFail => true
  | _ => false

/-- Forward-originated inputs. -/
def isForward : TrackerInput → Bool
  | .forwardOk => true
  | .forwardFail => true
  | _ => false

/-- One tracker update, exactly as `main.go` performs it:
probe failure increments `ConsecFailures` and at the threshold sets
`CircuitOpen := true` and `Healthy := false`; probe success stores 0 and
(when needed) sets `Healthy := true`, `CircuitOpen := false`; forward
failure increments and at the threshold sets only `CircuitOpen := true`;
forward success only stores 0 into `ConsecFailures`. -/
def trackerStep (thr : Int) (w : Worker) : TrackerInput → Worker
  | .probeFail =>
    let w1 := { w with consecFailures := w.consecFailures + 1 }
    if thr ≤ w1.consecFailures then
      { w1 with circuitOpen := true, healthy := false }
    else w1
  | .probeOk =>
    let w1 := { w with consecFailures := 0 }
    if !w1.healthy || w1.circuitOpen then
      { w1 with healthy := true, circuitOpen := false }
    else w1
  | .forwardFail =>
    let w1 := { w with consecFailures := w.consecFailures + 1 }
    if thr ≤ w1.consecFailures then { w1 with circuitOpen := true }
    else w1
  | .forwardOk => { w with consecFailures := 0 }

/-- Run a sequence of tracker inputs. -/
def trackerRun (thr : Int) (w : Worker) : List TrackerInput → Worker
  | [] => w
  | i :: rest => trackerRun thr (trackerStep thr w i) rest

/-- A sequence of tracker inputs is realizable when every forward outcome is
delivered while the worker is eligible (which selection guarantees at the
moment a forward starts). -/
def realizableB (thr : Int) (w : Worker) : List TrackerInput → Bool
  | [] => true
  | i :: rest =>
    (!isForward i || eligible w) && realizableB thr (trackerStep thr w i) rest

/-- Number of trailing failures of an input sequence. -/
def trailingFailCount (t : List TrackerInput) : Nat :=
  (t.reverse.takeWhile isFailure).length

/-- The last `k` outcomes of `t` exist and are all failures. -/
def lastKAllFailures (k : Nat) (t : List TrackerInput) : Bool :=
  decide (k ≤ t.length) && (t.reverse.take k).all isFailure

/-! Forwarding path of `handleTask` (per-worker effects). -/

/-- Outcome of the downstream `POST {url}/task`. -/
inductive ForwardOutcome where
  | transportError
  | status (code : Nat)
deriving DecidableEq, Repr

/-- The failure classification of `handleTask`:
`err != nil || resp.StatusCode >= 500`. -/
def forwardFailed : ForwardOutcome → Bool
  | .transportError => true
  | .status code => decide (500 ≤ code)

/-- State of the selected worker right after the start of the forward:
`CurrentLoad++`, `TotalRequests++`. -/
def afterInc (w : Worker) : Worker :=
  { w with currentLoad := w.currentLoad + 1,
           totalRequests := w.totalRequests + 1 }

/-- The `CurrentLoad--` performed when the downstream call returns. -/
def afterDec (w : Worker) : Worker :=
  { w with currentLoad := w.currentLoad - 1 }

/-- Failure bookkeeping of `handleTask`: `FailedRequests++`,
`ConsecFailures++`, open the circuit at the threshold. -/
def recordForwardFail (thr : Int) (w : Worker) : Worker :=
  let w1 := { w with failedRequests := w.failedRequests + 1,
                     consecFailures := w.consecFailures + 1 }
  if thr ≤ w1.consecFailures then { w1 with circuitOpen := true } else w1

/-- Success bookkeeping of `handleTask`: `ConsecFailures := 0`. -/
def recordForwardOk (w : Worker) : Worker :=
  { w with consecFailures := 0 }

/-- The whole per-worker effect of one accepted forward. -/
def forwardAccepted (thr : Int) (w : Worker) (o : ForwardOutcome) : Worker :=
  let w2 := afterDec (afterInc w)
  if forwardFailed o then recordForwardFail thr w2 else recordForwardOk w2

/-! UpdateWorker. -/

/-- Field updates applied by `UpdateWorker` to the matched worker:
`enabled` is applied whenever provided, `weight` only when strictly
positive. -/
def updateWorkerFields (enabled : Option Bool) (weight : Option Int)
    (w : Worker) : Worker :=
  let w1 := match enabled with
    | some e => { w with enabled := e }
    | none => w
  match weight with
  | some v => if 0 < v then { w1 with weight := v } else w1
  | none => w1

/-- The scan of `UpdateWorker`: update the first worker with the given
name, report whether one was found. -/
def updateWorkerGo : List Worker → String → Option Bool → Option Int →
    Bool × List Worker
  | [], _, _, _ => (false, [])
  | w :: rest, name, e, v =>
    if w.name = name then (true, updateWorkerFields e v w :: rest)
    else
      let r := updateWorkerGo rest name e v
      (r.1, w :: r.2)

/-- UpdateWorker at the balancer level. -/
def UpdateWorker (lb : LoadBalancer) (name : String) (e : Option Bool)
    (v : Option Int) : Bool × LoadBalancer :=
  let r := updateWorkerGo lb.workers name e v
  (r.1, { lb with workers := r.2 })

/-! Algorithm change. -/

/-- The four known algorithm names, in the order of `availableAlgorithms`. -/
def availableAlgorithms : List String :=
  ["round-robin", "least-connections", "weighted", "random"]

/-- SetAlgorithm: stores the given name with no validation. -/
def SetAlgorithm (lb : LoadBalancer) (algo : String) : LoadBalancer :=
  { lb with algorithm := algo }

/-- The PUT/POST branch of `handleAlgorithm`: `none` stands for a body that
failed to decode; a decoded name is validated against the four known names
before `SetAlgorithm` runs.  Returns the HTTP status and the new state. -/
def handleAlgorithmSet (lb : LoadBalancer) (req : Option String) :
    Nat × LoadBalancer :=
  match req with
  | none => (400, lb)
  | some a =>
    if availableAlgorithms.contains a then (200, SetAlgorithm lb a)
    else (400, lb)

/-! The `/task` handler. -/

/-- Response produced by `handleTask` (status code and body as written by
the Go handler; the success body is the worker's JSON augmented with
`worker`, `workerColor`, `processingTimeMs`, of which we record the two
name/color fields). -/
inductive TaskResponse where
  | methodNotAllowed
  | noWorkers
  | workerFailed
  | ok (workerName workerColor : String)
deriving DecidableEq, Repr

/-- HTTP status of each response. -/
def responseStatus : TaskResponse → Nat
  | .methodNotAllowed => 405
  | .noWorkers => 503
  | .workerFailed => 503
  | .ok _ _ => 200

/-- Body written with the 503 no-worker response. -/
def noWorkersBody : String := "\x7b\"error\": \"No healthy workers available\"\x7d"

/-- Error body of `handleTask` for each response (the success body is the
forwarded worker JSON and is not modelled). -/
def responseBody : TaskResponse → String
  | .methodNotAllowed => "Method not allowed"
  | .noWorkers => noWorkersBody
  | .workerFailed => "\x7b\"error\": \"Worker failed\"\x7d"
  | .ok _ _ => ""

/-- Dispatcher state visible to `handleTask`: the balancer plus the
`lb_requests_total{worker,status}` counter family. -/
structure TaskState where
  lb : LoadBalancer
  requestsTotal : String × String → Nat

/-- Increment one labelled counter. -/
def bump (f : String × String → Nat) (l : String × String) :
    String × String → Nat :=
  fun l' => if l' = l then f l' + 1 else f l'

/-- The `handleTask` handler: reject non-POST, select, account, forward
(outcome `o` is the downstream result), record the outcome.  `r` is the
random oracle for selection. -/
def handleTask (st : TaskState) (isPost : Bool) (r : Nat)
    (o : ForwardOutcome) : TaskResponse × TaskState :=
  if isPost = false then (.methodNotAllowed, st)
  else
    let sel := SelectWorker st.lb r
    match sel.1 with
    | none =>
      (.noWorkers,
       { lb := sel.2, requestsTotal := bump st.requestsTotal ("none", "error") })
    | some i =>
      match sel.2.workers[i]? with
      | none => (.noWorkers, { st with lb := sel.2 })
      | some w =>
        let w' := forwardAccepted sel.2.circuitThreshold w o
        let lb' := { sel.2 with workers := sel.2.workers.set i w' }
        if forwardFailed o then
          (.workerFailed,
           { lb := lb', requestsTotal := bump st.requestsTotal (w.name, "error") })
        else
          (.ok w.name w.color,
           { lb := lb', requestsTotal := bump st.requestsTotal (w.name, "success") })

end LB

namespace LB

/-! Theorems.  Claim theorems are named `cN_...`; helper lemmas are shared. -/

lemma forwardAccepted_currentLoad (thr : Int) (w : Worker) (o : ForwardOutcome) :
    (forwardAccepted thr w o).currentLoad = w.currentLoad := by
  simp only [forwardAccepted, afterInc, afterDec, recordForwardFail,
    recordForwardOk]
  split_ifs <;> simp

/-- C1: on an accepted forward, `currentLoad` is incremented exactly once at
the start (together with `totalRequests`), decremented exactly once when the
downstream call returns, before the outcome branch; so on every outcome
(transport error, status ≥ 500, success) the net change is zero, and
starting from a non-negative load both the in-flight state and the final
state have non-negative load. -/
theorem c1_forward_load_net_zero (thr : Int) (w : Worker) (o : ForwardOutcome)
    (h : 0 ≤ w.currentLoad) :
    (afterInc w).currentLoad = w.currentLoad + 1 ∧
    (afterInc w).totalRequests = w.totalRequests + 1 ∧
    (afterDec (afterInc w)).currentLoad = w.currentLoad ∧
    (forwardAccepted thr w o).currentLoad = w.currentLoad ∧
    0 ≤ (afterInc w).currentLoad ∧
    0 ≤ (forwardAccepted thr w o).currentLoad := by
  refine ⟨rfl, rfl, by simp [afterDec, afterInc], forwardAccepted_currentLoad thr w o, ?_, ?_⟩
  · simp [afterInc]; omega
  · rw [forwardAccepted_currentLoad]; exact h

/-- Witness for C1 at a concrete worker and outcome. -/
theorem c1_forward_load_net_zero_witness :
    (forwardAccepted 3 (initWorker "w1" "u" "c" 1 3) ForwardOutcome.transportError).currentLoad
      = (initWorker "w1" "u" "c" 1 3).currentLoad ∧
    0 ≤ (forwardAccepted 3 (initWorker "w1" "u" "c" 1 3) ForwardOutcome.transportError).currentLoad := by
  have h := c1_forward_load_net_zero 3 (initWorker "w1" "u" "c" 1 3)
    ForwardOutcome.transportError (by decide)
  exact ⟨h.2.2.2.1, h.2.2.2.2.2⟩

/-- C3 (amended): the updates the tracker applies.  A probe success sets
`consecFailures := 0`, `healthy := true`, `circuitOpen := false`; a forward
success only sets `consecFailures := 0`, leaving `healthy` and
`circuitOpen` unchanged.  A probe failure and a forward failure agree on
`consecFailures` and on `circuitOpen` (increment; open at the threshold),
but only the probe failure sets `healthy := false` at the threshold: a
forward failure never changes `healthy`. -/
theorem c3_tracker_updates (thr : Int) (w : Worker) :
    trackerStep thr w TrackerInput.probeOk =
      { w with consecFailures := 0, healthy := true, circuitOpen := false } ∧
    trackerStep thr w TrackerInput.forwardOk = { w with consecFailures := 0 } ∧
    (trackerStep thr w TrackerInput.forwardOk).healthy = w.healthy ∧
    (trackerStep thr w TrackerInput.forwardOk).circuitOpen = w.circuitOpen ∧
    (trackerStep thr w TrackerInput.forwardFail).consecFailures
      = (trackerStep thr w TrackerInput.probeFail).consecFailures ∧
    (trackerStep thr w TrackerInput.forwardFail).circuitOpen
      = (trackerStep thr w TrackerInput.probeFail).circuitOpen ∧
    (trackerStep thr w TrackerInput.forwardFail).healthy = w.healthy := by
  cases w
  refine ⟨?_, rfl, rfl, rfl, ?_, ?_, ?_⟩ <;>
    simp only [trackerStep] <;> split_ifs <;> simp_all

/-- Counterexample worker for the failure updates: two consecutive failures
already recorded, healthy, circuit closed. -/
def cexWorkerA : Worker :=
  { initWorker "w1" "u" "c" 1 3 with consecFailures := 2 }

/-- Counterexample worker for the success updates: circuit open, unhealthy. -/
def cexWorkerB : Worker :=
  { initWorker "w1" "u" "c" 1 3 with circuitOpen := true, healthy := false }

/-- C3 is false as stated: at the circuit threshold a probe failure marks the
worker unhealthy while a forward failure does not, and a probe success
closes an open circuit while a forward success leaves it open. -/
theorem c3_counterexample :
    trackerStep 3 cexWorkerA TrackerInput.forwardFail
      ≠ trackerStep 3 cexWorkerA TrackerInput.probeFail ∧
    trackerStep 3 cexWorkerB TrackerInput.forwardOk
      ≠ trackerStep 3 cexWorkerB TrackerInput.probeOk := by
  decide

/-- C7 (amended): the PUT/POST `/algorithm` handler accepts exactly the four
known names, rejecting any other (and any undecodable body) with a 400 and
leaving the stored algorithm unchanged; `SetAlgorithm` itself does not
validate. -/
theorem c7_handle_algorithm (lb : LoadBalancer) (a : String) :
    (a ∈ availableAlgorithms →
      handleAlgorithmSet lb (some a) = (200, { lb with algorithm := a })) ∧
    (a ∉ availableAlgorithms →
      handleAlgorithmSet lb (some a) = (400, lb)) ∧
    handleAlgorithmSet lb none = (400, lb) := by
  refine ⟨fun h => ?_, fun h => ?_, rfl⟩ <;>
    simp [handleAlgorithmSet, SetAlgorithm, h]

/-- Witness for C7: one accepted name, one rejected name. -/
theorem c7_handle_algorithm_witness :
    handleAlgorithmSet NewLoadBalancer (some "weighted")
      = (200, { NewLoadBalancer with algorithm := "weighted" }) ∧
    handleAlgorithmSet NewLoadBalancer (some "bogus") = (400, NewLoadBalancer) :=
  ⟨(c7_handle_algorithm NewLoadBalancer "weighted").1 (by decide),
   (c7_handle_algorithm NewLoadBalancer "bogus").2.1 (by decide)⟩

/-- C7 is false of the `SetAlgorithm` function itself (and of the
`LB_ALGORITHM` startup path, which calls it directly): an unknown name is
installed with no validation. -/
theorem c7_counterexample :
    (SetAlgorithm NewLoadBalancer "bogus").algorithm = "bogus" ∧
    "bogus" ∉ availableAlgorithms := by
  decide

lemma updateWorkerGo_found_iff (ws : List Worker) (name : String)
    (e : Option Bool) (v : Option Int) :
    (updateWorkerGo ws name e v).1 = true ↔ ∃ w ∈ ws, w.name = name := by
  induction ws with
  | nil => simp [updateWorkerGo]
  | cons w rest ih =>
    by_cases h : w.name = name
    · simp [updateWorkerGo, h]
    · simp only [updateWorkerGo, if_neg h, List.mem_cons]
      constructor
      · intro hr
        obtain ⟨w', hw', hn⟩ := ih.mp hr
        exact ⟨w', Or.inr hw', hn⟩
      · rintro ⟨w', hw' | hw', hn⟩
        · exact absurd (hw' ▸ hn) h
        · exact ih.mpr ⟨w', hw', hn⟩

/-- C8: `UpdateWorker` reports found exactly when a worker with the given
name exists; a provided weight is applied only when strictly positive
(non-positive values preserve the previous weight); a provided enabled flag
is applied unconditionally. -/
theorem c8_update_worker (ws : List Worker) (name : String)
    (e : Option Bool) (v : Option Int) :
    ((updateWorkerGo ws name e v).1 = true ↔ ∃ w ∈ ws, w.name = name) ∧
    (∀ w : Worker,
      (updateWorkerFields e v w).enabled = e.getD w.enabled ∧
      (updateWorkerFields e v w).weight =
        (match v with
         | some x => if 0 < x then x else w.weight
         | none => w.weight)) := by
  refine ⟨updateWorkerGo_found_iff ws name e v, fun w => ⟨?_, ?_⟩⟩ <;>
    cases e <;> cases v <;> simp [updateWorkerFields] <;> split <;> simp

lemma updateWorkerGo_not_found (ws : List Worker) (name : String)
    (e : Option Bool) (v : Option Int) (h : ∀ w ∈ ws, w.name ≠ name) :
    updateWorkerGo ws name e v = (false, ws) := by
  induction ws with
  | nil => rfl
  | cons w rest ih =>
    have hw : w.name ≠ name := h w (List.mem_cons_self w rest)
    simp only [updateWorkerGo, if_neg hw,
      ih (fun w' hw' => h w' (List.mem_cons_of_mem w hw'))]

lemma updateWorkerGo_found (ws : List Worker) (name : String)
    (e : Option Bool) (v : Option Int) (h : ∃ w ∈ ws, w.name = name) :
    ∃ l1 w l2, ws = l1 ++ w :: l2 ∧ w.name = name ∧
      (∀ w' ∈ l1, w'.name ≠ name) ∧
      updateWorkerGo ws name e v = (true, l1 ++ updateWorkerFields e v w :: l2) := by
  induction ws with
  | nil => simp at h
  | cons w rest ih =>
    by_cases hw : w.name = name
    · exact ⟨[], w, rest, rfl, hw, by simp, by simp [updateWorkerGo, hw]⟩
    · have hr : ∃ w' ∈ rest, w'.name = name := by
        obtain ⟨w', hw', hn⟩ := h
        rcases List.mem_cons.mp hw' with h0 | h1
        · exact absurd (h0 ▸ hn) hw
        · exact ⟨w', h1, hn⟩
      obtain ⟨l1, w2, l2, hdec, hn, hl1, heq⟩ := ih hr
      refine ⟨w :: l1, w2, l2, by simp [hdec], hn, ?_, ?_⟩
      · intro w' hw'
        rcases List.mem_cons.mp hw' with h0 | h1
        · exact h0 ▸ hw
        · exact hl1 w' h1
      · simp [updateWorkerGo, if_neg hw, heq]

/-- C10: a successful `UpdateWorker` rewrites exactly the first worker with
the given name through `updateWorkerFields` (which can change only
`enabled` and `weight`: all ten other fields are preserved), leaves every
other worker untouched, and preserves the registry's algorithm, round-robin
cursor and circuit threshold; a not-found `UpdateWorker` changes nothing. -/
theorem c10_update_worker_frame (lb : LoadBalancer) (name : String)
    (e : Option Bool) (v : Option Int) :
    ((¬ ∃ w ∈ lb.workers, w.name = name) →
      UpdateWorker lb name e v = (false, lb)) ∧
    ((∃ w ∈ lb.workers, w.name = name) →
      ∃ l1 w l2, lb.workers = l1 ++ w :: l2 ∧ w.name = name ∧
        (∀ w' ∈ l1, w'.name ≠ name) ∧
        UpdateWorker lb name e v =
          (true, { lb with workers := l1 ++ updateWorkerFields e v w :: l2 })) ∧
    (∀ w : Worker,
      (updateWorkerFields e v w).name = w.name ∧
      (updateWorkerFields e v w).url = w.url ∧
      (updateWorkerFields e v w).color = w.color ∧
      (updateWorkerFields e v w).maxLoad = w.maxLoad ∧
      (updateWorkerFields e v w).healthy = w.healthy ∧
      (updateWorkerFields e v w).currentLoad = w.currentLoad ∧
      (updateWorkerFields e v w).totalRequests = w.totalRequests ∧
      (updateWorkerFields e v w).failedRequests = w.failedRequests ∧
      (updateWorkerFields e v w).circuitOpen = w.circuitOpen ∧
      (updateWorkerFields e v w).consecFailures = w.consecFailures) ∧
    (UpdateWorker lb name e v).2.algorithm = lb.algorithm ∧
    (UpdateWorker lb name e v).2.roundRobinIdx = lb.roundRobinIdx ∧
    (UpdateWorker lb name e v).2.circuitThreshold = lb.circuitThreshold := by
  refine ⟨fun h => ?_, fun h => ?_, fun w => ?_, rfl, rfl, rfl⟩
  · have hne : ∀ w ∈ lb.workers, w.name ≠ name := by
      intro w hw hn
      exact h ⟨w, hw, hn⟩
    cases lb
    simp [UpdateWorker, updateWorkerGo_not_found _ _ _ _ hne]
  · obtain ⟨l1, w, l2, hdec, hn, hl1, heq⟩ := updateWorkerGo_found lb.workers name e v h
    exact ⟨l1, w, l2, hdec, hn, hl1, by simp [UpdateWorker, heq]⟩
  · cases e <;> cases v <;> simp [updateWorkerFields] <;> split <;> simp

/-- Registry used by the C10 witness: one worker named `w1`. -/
def lbW : LoadBalancer := AddWorker NewLoadBalancer "w1" "u" "#fff" 2 3

/-- Witness for C10: a not-found update changes nothing, and a found update
rewrites exactly the matched worker. -/
theorem c10_update_worker_frame_witness :
    UpdateWorker lbW "nope" (some false) (some 5) = (false, lbW) ∧
    (∃ l1 w l2, lbW.workers = l1 ++ w :: l2 ∧ w.name = "w1" ∧
      (∀ w' ∈ l1, w'.name ≠ "w1") ∧
      UpdateWorker lbW "w1" (some false) (some 5) =
        (true, { lbW with workers := l1 ++ updateWorkerFields (some false) (some 5) w :: l2 })) :=
  ⟨(c10_update_worker_frame lbW "nope" (some false) (some 5)).1 (by decide),
   (c10_update_worker_frame lbW "w1" (some false) (some 5)).2.1 (by decide)⟩

end LB

namespace LB

lemma mem_of_getElem_opt {α : Type _} {l : List α} {i : Nat} {a : α}
    (h : l[i]? = some a) : a ∈ l := by
  obtain ⟨hlt, rfl⟩ := List.getElem?_eq_some.mp h
  exact List.getElem_mem hlt

lemma weightedWalkIdx_spec : ∀ (l : List Worker) (r : Int) (pos i : Nat),
    0 ≤ r → weightedWalkIdx l r pos = some i →
    ∃ k w, i = pos + k ∧ l[k]? = some w ∧ eligible w = true ∧ 0 < w.weight := by
  intro l
  induction l with
  | nil => intro r pos i _ h; simp [weightedWalkIdx] at h
  | cons w rest ih =>
    intro r pos i hr h
    by_cases hel : eligible w = true
    · by_cases hneg : r - w.weight < 0
      · have hi : i = pos := by
          simp [weightedWalkIdx, hel, hneg] at h
          omega
        exact ⟨0, w, by omega, by simp, hel, by omega⟩
      · have h' : weightedWalkIdx rest (r - w.weight) (pos + 1) = some i := by
          simpa [weightedWalkIdx, hel, hneg] using h
        obtain ⟨k, w2, hik, hget, hel2, hpos⟩ := ih (r - w.weight) (pos + 1) i (by omega) h'
        exact ⟨k + 1, w2, by omega, by simpa using hget, hel2, hpos⟩
    · have h' : weightedWalkIdx rest r (pos + 1) = some i := by
        simpa [weightedWalkIdx, hel] using h
      obtain ⟨k, w2, hik, hget, hel2, hpos⟩ := ih r (pos + 1) i hr h'
      exact ⟨k + 1, w2, by omega, by simpa using hget, hel2, hpos⟩

lemma firstEligibleIdx_spec : ∀ (l : List Worker) (pos i : Nat),
    firstEligibleIdx l pos = some i →
    ∃ k w, i = pos + k ∧ l[k]? = some w ∧ eligible w = true ∧
      ∀ j w', j < k → l[j]? = some w' → eligible w' = false := by
  intro l
  induction l with
  | nil => intro pos i h; simp [firstEligibleIdx] at h
  | cons w rest ih =>
    intro pos i h
    by_cases hel : eligible w = true
    · have hi : i = pos := by
        simp [firstEligibleIdx, hel] at h
        omega
      exact ⟨0, w, by omega, by simp, hel, by omega⟩
    · have h' : firstEligibleIdx rest (pos + 1) = some i := by
        simpa [firstEligibleIdx, hel] using h
      obtain ⟨k, w2, hik, hget, hel2, hbef⟩ := ih (pos + 1) i h'
      refine ⟨k + 1, w2, by omega, by simpa using hget, hel2, ?_⟩
      intro j w' hj hget' 
      match j with
      | 0 =>
        have hww : w = w' := by simpa using hget'
        subst hww
        simpa using hel
      | j + 1 =>
        exact hbef j w' (by omega) (by simpa using hget')

lemma totalWeight_fold_mono : ∀ (ws : List Worker) (acc : Int),
    (∀ w ∈ ws, 0 ≤ w.weight) →
    acc ≤ ws.foldl (fun a w => if eligible w then a + w.weight else a) acc := by
  intro ws
  induction ws with
  | nil => intro acc _; simp
  | cons w rest ih =>
    intro acc h
    have hw : 0 ≤ w.weight := h w (List.mem_cons_self w rest)
    have hrest := ih (if eligible w then acc + w.weight else acc)
      (fun w' hw' => h w' (List.mem_cons_of_mem w hw'))
    refine le_trans ?_ hrest
    split <;> omega

lemma totalWeight_fold_pos : ∀ (ws : List Worker) (acc : Int),
    (∀ w ∈ ws, 0 ≤ w.weight) →
    (∃ w ∈ ws, eligible w = true ∧ 0 < w.weight) →
    acc < ws.foldl (fun a w => if eligible w then a + w.weight else a) acc := by
  intro ws
  induction ws with
  | nil => intro acc _ h; simp at h
  | cons w rest ih =>
    intro acc hw h
    simp only [List.foldl_cons]
    have hwrest : ∀ w' ∈ rest, 0 ≤ w'.weight :=
      fun w' hw' => hw w' (List.mem_cons_of_mem w hw')
    obtain ⟨w0, hmem, hel0, hpos0⟩ := h
    rcases List.mem_cons.mp hmem with h0 | h1
    · subst h0
      rw [if_pos hel0]
      have := totalWeight_fold_mono rest (acc + w0.weight) hwrest
      omega
    · have hstep : acc ≤ if eligible w then acc + w.weight else acc := by
        have := hw w (List.mem_cons_self w rest)
        split <;> omega
      have := ih (if eligible w then acc + w.weight else acc) hwrest ⟨w0, h1, hel0, hpos0⟩
      omega

lemma totalWeight_pos (ws : List Worker)
    (hw : ∀ w ∈ ws, 0 ≤ w.weight)
    (h : ∃ w ∈ ws, eligible w = true ∧ 0 < w.weight) :
    0 < totalWeight ws :=
  totalWeight_fold_pos ws 0 hw h

/-- C5: under `weighted`, (a) whenever some eligible worker has strictly
positive weight (and weights are non-negative, as every write path
guarantees), the selected worker has strictly positive weight — so a
zero-weight worker is never picked while a positive-weight eligible worker
exists; (b) when the total eligible weight is zero the selection is the
fallback scan, which returns the first eligible worker in registration
order. -/
theorem c5_weighted (ws : List Worker) (r : Int) (i : Nat)
    (hw : ∀ w ∈ ws, 0 ≤ w.weight) :
    (0 ≤ r → (∃ w' ∈ ws, eligible w' = true ∧ 0 < w'.weight) →
      weightedSel ws r = some i →
      ∃ w, ws[i]? = some w ∧ eligible w = true ∧ 0 < w.weight) ∧
    (totalWeight ws = 0 →
      weightedSel ws r = firstEligibleIdx ws 0 ∧
      (weightedSel ws r = some i →
        ∃ w, ws[i]? = some w ∧ eligible w = true ∧
          ∀ j w', j < i → ws[j]? = some w' → eligible w' = false)) := by
  constructor
  · intro hr hpos hsel
    have htw : totalWeight ws ≠ 0 := by
      have := totalWeight_pos ws hw hpos
      omega
    rw [weightedSel, if_neg htw] at hsel
    obtain ⟨k, w, hik, hget, hel, hwt⟩ := weightedWalkIdx_spec ws r 0 i hr hsel
    exact ⟨w, by simpa [hik] using hget, hel, hwt⟩
  · intro htw
    have hdef : weightedSel ws r = firstEligibleIdx ws 0 := by
      rw [weightedSel, if_pos htw]
    refine ⟨hdef, fun hsel => ?_⟩
    rw [hdef] at hsel
    obtain ⟨k, w, hik, hget, hel, hbef⟩ := firstEligibleIdx_spec ws 0 i hsel
    have hik' : i = k := by omega
    subst hik'
    exact ⟨w, hget, hel, hbef⟩

/-- Workers used by the C5 witness: an eligible zero-weight worker before an
eligible positive-weight worker. -/
def wsW : List Worker := [initWorker "z" "u" "c" 0 3, initWorker "p" "u" "c" 2 3]

/-- Workers used by the C5 witness fallback: an ineligible worker before an
eligible zero-weight worker. -/
def wsZ : List Worker :=
  [{ initWorker "d" "u" "c" 0 3 with enabled := false }, initWorker "z" "u" "c" 0 3]

/-- Witness for C5: with draw `r = 1` the positive-weight worker at index 1
is selected, never the zero-weight one; with all-zero weights the fallback
returns the first eligible worker. -/
theorem c5_weighted_witness :
    (∃ w, wsW[1]? = some w ∧ eligible w = true ∧ 0 < w.weight) ∧
    weightedSel wsZ 0 = firstEligibleIdx wsZ 0 :=
  ⟨(c5_weighted wsW 1 1 (by decide)).1 (by decide) (by decide) (by decide),
   ((c5_weighted wsZ 0 0 (by decide)).2 (by decide)).1⟩

end LB

namespace LB

lemma lcGo_no_eligible : ∀ (ws : List Worker) (pos : Nat) (sel : Option Nat)
    (m : Int), (∀ w ∈ ws, eligible w = false) → lcGo ws pos sel m = sel := by
  intro ws
  induction ws with
  | nil => intro pos sel m _; rfl
  | cons w rest ih =>
    intro pos sel m h
    have hw := h w (List.mem_cons_self w rest)
    simp only [lcGo, hw, if_pos]
    exact ih (pos + 1) sel m fun w' hw' => h w' (List.mem_cons_of_mem w hw')

lemma totalWeight_fold_no_eligible : ∀ (ws : List Worker) (acc : Int),
    (∀ w ∈ ws, eligible w = false) →
    ws.foldl (fun a w => if eligible w then a + w.weight else a) acc = acc := by
  intro ws
  induction ws with
  | nil => intro acc _; rfl
  | cons w rest ih =>
    intro acc h
    have hw := h w (List.mem_cons_self w rest)
    simp only [List.foldl_cons, hw, Bool.false_eq_true, if_false]
    exact ih acc fun w' hw' => h w' (List.mem_cons_of_mem w hw')

lemma firstEligibleIdx_no_eligible : ∀ (ws : List Worker) (pos : Nat),
    (∀ w ∈ ws, eligible w = false) → firstEligibleIdx ws pos = none := by
  intro ws
  induction ws with
  | nil => intro pos _; rfl
  | cons w rest ih =>
    intro pos h
    have hw := h w (List.mem_cons_self w rest)
    simp only [firstEligibleIdx, hw, Bool.false_eq_true, if_false]
    exact ih (pos + 1) fun w' hw' => h w' (List.mem_cons_of_mem w hw')

lemma countEligible_fold_no_eligible : ∀ (ws : List Worker) (acc : Nat),
    (∀ w ∈ ws, eligible w = false) →
    ws.foldl (fun c w => if eligible w then c + 1 else c) acc = acc := by
  intro ws
  induction ws with
  | nil => intro acc _; rfl
  | cons w rest ih =>
    intro acc h
    have hw := h w (List.mem_cons_self w rest)
    simp only [List.foldl_cons, hw, Bool.false_eq_true, if_false]
    exact ih acc fun w' hw' => h w' (List.mem_cons_of_mem w hw')

lemma findSome_eq_none_of_all {α β : Type _} (f : α → Option β) :
    ∀ (l : List α), (∀ x ∈ l, f x = none) → l.findSome? f = none := by
  intro l
  induction l with
  | nil => intro _; rfl
  | cons a l ih =>
    intro h
    rw [List.findSome?_cons, h a (List.mem_cons_self a l)]
    exact ih fun x hx => h x (List.mem_cons_of_mem a hx)

lemma roundRobinScan_no_eligible (ws : List Worker) (s : Nat)
    (h : ∀ w ∈ ws, eligible w = false) : roundRobinScan ws s = none := by
  unfold roundRobinScan
  apply findSome_eq_none_of_all
  intro i _
  cases hg : ws[(s + i) % ws.length]? with
  | none => simp only [hg]
  | some w =>
    have := h w (mem_of_getElem_opt hg)
    simp only [hg, this, Bool.false_eq_true, if_false]

lemma selectWorker_no_eligible (lb : LoadBalancer) (r : Nat)
    (h : ∀ w ∈ lb.workers, eligible w = false) :
    (SelectWorker lb r).1 = none ∧
    (SelectWorker lb r).2.workers = lb.workers ∧
    (SelectWorker lb r).2.algorithm = lb.algorithm ∧
    (SelectWorker lb r).2.circuitThreshold = lb.circuitThreshold := by
  unfold SelectWorker
  split_ifs with h0 h1 h2 h3
  · exact ⟨rfl, rfl, rfl, rfl⟩
  · exact ⟨lcGo_no_eligible lb.workers 0 none MAX_INT64 h, rfl, rfl, rfl⟩
  · refine ⟨?_, rfl, rfl, rfl⟩
    have htw : totalWeight lb.workers = 0 :=
      totalWeight_fold_no_eligible lb.workers 0 h
    simp only [weightedSel, htw, if_pos]
    exact firstEligibleIdx_no_eligible lb.workers 0 h
  · refine ⟨?_, rfl, rfl, rfl⟩
    have hc : countEligible lb.workers = 0 :=
      countEligible_fold_no_eligible lb.workers 0 h
    simp [randomSel, hc]
  · exact ⟨roundRobinScan_no_eligible lb.workers _ h, rfl, rfl, rfl⟩

/-- C9: when no worker is eligible, `POST /task` responds 503 with body
`{"error": "No healthy workers available"}`, increments exactly the
`lb_requests_total{worker="none",status="error"}` counter by one (all other
label pairs unchanged), and leaves every worker — all counters and flags —
untouched. -/
theorem c9_no_workers (st : TaskState) (r : Nat) (o : ForwardOutcome)
    (h : ∀ w ∈ st.lb.workers, eligible w = false) :
    ∃ st', handleTask st true r o = (TaskResponse.noWorkers, st') ∧
      responseStatus TaskResponse.noWorkers = 503 ∧
      responseBody TaskResponse.noWorkers = noWorkersBody ∧
      st'.lb.workers = st.lb.workers ∧
      st'.lb.algorithm = st.lb.algorithm ∧
      st'.requestsTotal ("none", "error")
        = st.requestsTotal ("none", "error") + 1 ∧
      ∀ l, l ≠ ("none", "error") → st'.requestsTotal l = st.requestsTotal l := by
  obtain ⟨h1, h2, h3, _⟩ := selectWorker_no_eligible st.lb r h
  refine ⟨{ lb := (SelectWorker st.lb r).2,
            requestsTotal := bump st.requestsTotal ("none", "error") },
    ?_, rfl, rfl, h2, h3, ?_, ?_⟩
  · simp only [handleTask, Bool.true_eq_false, if_false]
    rw [h1]
  · simp [bump]
  · intro l hl
    simp [bump, hl]

/-- An ineligible (disabled) worker for the C9 witness. -/
def lbDis : LoadBalancer :=
  { NewLoadBalancer with
    workers := [{ initWorker "w1" "u" "c" 1 3 with enabled := false }] }

/-- State used by the C9 witness. -/
def stW : TaskState := { lb := lbDis, requestsTotal := fun _ => 0 }

/-- Witness for C9 at a concrete one-disabled-worker state. -/
theorem c9_no_workers_witness :
    ∃ st', handleTask stW true 0 ForwardOutcome.transportError
        = (TaskResponse.noWorkers, st') ∧
      responseStatus TaskResponse.noWorkers = 503 ∧
      responseBody TaskResponse.noWorkers = noWorkersBody ∧
      st'.lb.workers = stW.lb.workers ∧
      st'.lb.algorithm = stW.lb.algorithm ∧
      st'.requestsTotal ("none", "error")
        = stW.requestsTotal ("none", "error") + 1 ∧
      ∀ l, l ≠ ("none", "error") → st'.requestsTotal l = stW.requestsTotal l :=
  c9_no_workers stW 0 ForwardOutcome.transportError (by decide)

end LB

namespace LB

/-- The update `main.go` applies to `ConsecFailures` on one outcome:
increment on a failure, store 0 on a success. -/
def cfStep (a : Int) (i : TrackerInput) : Int :=
  if isFailure i then a + 1 else 0

lemma trackerStep_consecFailures (thr : Int) (w : Worker) (i : TrackerInput) :
    (trackerStep thr w i).consecFailures = cfStep w.consecFailures i := by
  cases i with
  | probeOk =>
    simp only [trackerStep, cfStep, isFailure]
    split <;> rfl
  | probeFail =>
    simp only [trackerStep, cfStep, isFailure]
    split <;> rfl
  | forwardOk => rfl
  | forwardFail =>
    simp only [trackerStep, cfStep, isFailure]
    split <;> rfl

lemma trackerRun_consecFailures (thr : Int) :
    ∀ (t : List TrackerInput) (w : Worker),
      (trackerRun thr w t).consecFailures = t.foldl cfStep w.consecFailures := by
  intro t
  induction t with
  | nil => intro w; rfl
  | cons i rest ih =>
    intro w
    simp only [trackerRun, List.foldl_cons]
    rw [ih (trackerStep thr w i), trackerStep_consecFailures]

lemma le_takeWhile_length_iff {α : Type _} (p : α → Bool) :
    ∀ (l : List α) (k : Nat),
      k ≤ (l.takeWhile p).length ↔ k ≤ l.length ∧ (l.take k).all p = true := by
  intro l
  induction l with
  | nil => intro k; simp
  | cons a l ih =>
    intro k
    cases hpa : p a with
    | true =>
      cases k with
      | zero => simp
      | succ k =>
        rw [List.takeWhile_cons, if_pos hpa]
        simp only [List.length_cons, Nat.add_le_add_iff_right,
          List.take_succ_cons, List.all_cons, hpa, Bool.true_and]
        exact ih k
    | false =>
      cases k with
      | zero => simp
      | succ k =>
        rw [List.takeWhile_cons, if_neg (by simp [hpa])]
        simp [hpa]
    
lemma lastKAllFailures_iff (k : Nat) (t : List TrackerInput) :
    lastKAllFailures k t = true ↔ k ≤ trailingFailCount t := by
  unfold lastKAllFailures trailingFailCount
  rw [le_takeWhile_length_iff isFailure t.reverse k]
  simp [List.length_reverse]

lemma takeWhile_append_all {α : Type _} (p : α → Bool) :
    ∀ (l1 l2 : List α), l1.all p = true →
      (l1 ++ l2).takeWhile p = l1 ++ l2.takeWhile p := by
  intro l1
  induction l1 with
  | nil => intro l2 _; rfl
  | cons a l ih =>
    intro l2 h
    simp only [List.all_cons, Bool.and_eq_true] at h
    simp only [List.cons_append, List.takeWhile_cons, h.1, if_pos,
      ih l2 h.2]

lemma takeWhile_append_not_all {α : Type _} (p : α → Bool) :
    ∀ (l1 l2 : List α), l1.all p = false →
      (l1 ++ l2).takeWhile p = l1.takeWhile p := by
  intro l1
  induction l1 with
  | nil => intro l2 h; simp at h
  | cons a l ih =>
    intro l2 h
    cases hpa : p a with
    | true =>
      have hl : l.all p = false := by
        cases hal : l.all p
        · rfl
        · rw [List.all_cons, hpa, hal] at h; simp at h
      simp only [List.cons_append, List.takeWhile_cons, hpa, if_pos,
        ih l2 hl]
    | false =>
      simp only [List.cons_append, List.takeWhile_cons, hpa]
      simp

lemma takeWhile_of_all {α : Type _} (p : α → Bool) :
    ∀ (l : List α), l.all p = true → l.takeWhile p = l := by
  intro l
  induction l with
  | nil => intro _; rfl
  | cons a l ih =>
    intro h
    simp only [List.all_cons, Bool.and_eq_true] at h
    rw [List.takeWhile_cons, if_pos h.1, ih h.2]

lemma trailingFailCount_cons_of_not_all (i : TrackerInput)
    (rest : List TrackerInput) (h : rest.all isFailure = false) :
    trailingFailCount (i :: rest) = trailingFailCount rest := by
  unfold trailingFailCount
  rw [List.reverse_cons,
    takeWhile_append_not_all isFailure rest.reverse [i] (by rwa [List.all_reverse])]

lemma trailingFailCount_cons_succ (i : TrackerInput)
    (rest : List TrackerInput) (hall : rest.all isFailure = true)
    (hi : isFailure i = false) :
    trailingFailCount (i :: rest) = rest.length := by
  unfold trailingFailCount
  rw [List.reverse_cons,
    takeWhile_append_all isFailure rest.reverse [i] (by rwa [List.all_reverse])]
  rw [List.takeWhile_cons, if_neg (by simp [hi])]
  simp

lemma foldl_cfStep_eq : ∀ (t : List TrackerInput) (a : Int), 0 ≤ a →
    t.foldl cfStep a =
      if t.all isFailure then a + t.length else (trailingFailCount t : Int) := by
  intro t
  induction t with
  | nil => intro a _; simp
  | cons i rest ih =>
    intro a ha
    simp only [List.foldl_cons]
    cases hfi : isFailure i with
    | true =>
      have hstep : cfStep a i = a + 1 := by simp [cfStep, hfi]
      rw [hstep, ih (a + 1) (by omega)]
      cases hra : rest.all isFailure with
      | true =>
        have hall : (i :: rest).all isFailure = true := by
          simp [List.all_cons, hfi, hra]
        rw [if_pos rfl, if_pos hall]
        simp only [List.length_cons]
        push_cast
        ring
      | false =>
        have hall : (i :: rest).all isFailure = false := by
          simp [List.all_cons, hra]
        rw [if_neg (by simp), if_neg (by simp [hall]),
          trailingFailCount_cons_of_not_all i rest hra]
    | false =>
      have hstep : cfStep a i = 0 := by simp [cfStep, hfi]
      rw [hstep, ih 0 le_rfl]
      have hall : (i :: rest).all isFailure = false := by
        simp [List.all_cons, hfi]
      cases hra : rest.all isFailure with
      | true =>
        rw [if_pos rfl, if_neg (by simp [hall]),
          trailingFailCount_cons_succ i rest hra hfi]
        omega
      | false =>
        rw [if_neg (by simp), if_neg (by simp [hall]),
          trailingFailCount_cons_of_not_all i rest hra]

lemma foldl_cfStep_zero (t : List TrackerInput) :
    t.foldl cfStep 0 = (trailingFailCount t : Int) := by
  rw [foldl_cfStep_eq t 0 le_rfl]
  split_ifs with h
  · have heq : trailingFailCount t = t.length := by
      unfold trailingFailCount
      rw [takeWhile_of_all isFailure t.reverse (by rwa [List.all_reverse])]
      simp
    rw [heq]
    omega
  · rfl

lemma tracker_open_inv (thr : Int) (hthr : 0 < thr) :
    ∀ (t : List TrackerInput) (w : Worker),
      w.circuitOpen = decide (thr ≤ w.consecFailures) →
      realizableB thr w t = true →
      (trackerRun thr w t).circuitOpen
        = decide (thr ≤ (trackerRun thr w t).consecFailures) := by
  intro t
  induction t with
  | nil => intro w hw _; exact hw
  | cons i rest ih =>
    intro w hw hreal
    simp only [realizableB, Bool.and_eq_true] at hreal
    obtain ⟨hfw, hrest⟩ := hreal
    refine ih (trackerStep thr w i) ?_ hrest
    cases i with
    | probeOk =>
      simp only [trackerStep]
      split_ifs with h
      · simp
        omega
      · simp only [Bool.or_eq_true, Bool.not_eq_true', not_or] at h
        simp only [h.2]
        have : ¬ thr ≤ (0 : Int) := by omega
        simp [this]
    | probeFail =>
      simp only [trackerStep]
      split_ifs with h
      · simp [h]
      · simp only []
        rw [hw]
        have h1 : ¬ thr ≤ w.consecFailures := by omega
        simp [h1, h]
    | forwardOk =>
      have hel : eligible w = true := by simpa [isForward] using hfw
      have hopen : w.circuitOpen = false := by
        simp only [eligible, Bool.and_eq_true, Bool.not_eq_true'] at hel
        exact hel.2
      simp only [trackerStep, hopen]
      have : ¬ thr ≤ (0 : Int) := by omega
      simp [this]
    | forwardFail =>
      simp only [trackerStep]
      split_ifs with h
      · simp [h]
      · simp only []
        rw [hw]
        have h1 : ¬ thr ≤ w.consecFailures := by omega
        simp [h1, h]

/-- C2 (amended): starting from a freshly added worker, for every sequence
of probe/forward outcomes in which forward outcomes are delivered only
while the worker is eligible (which selection guarantees at the moment a
forward starts), `circuitOpen` is true exactly when the last
`circuitThreshold = 3` outcomes were all failures with no intervening
success; and any success outcome resets `consecFailures` to 0
(unconditionally).  Without the eligibility restriction the iff fails: a
forward success delivered after the circuit opened (possible only for a
forward already in flight when the circuit opened) resets `consecFailures`
but leaves `circuitOpen` true — see the counterexample. -/
theorem c2_circuit_iff (nm u c : String) (wt ml : Int) (t : List TrackerInput)
    (h : realizableB 3 (initWorker nm u c wt ml) t = true) :
    ((trackerRun 3 (initWorker nm u c wt ml) t).circuitOpen = true ↔
      lastKAllFailures 3 t = true) ∧
    (∀ (w : Worker) (i : TrackerInput), isFailure i = false →
      (trackerStep 3 w i).consecFailures = 0) := by
  constructor
  · have hinv := tracker_open_inv 3 (by norm_num) t (initWorker nm u c wt ml)
      (by simp [initWorker]) h
    have hcf : (trackerRun 3 (initWorker nm u c wt ml) t).consecFailures
        = (trailingFailCount t : Int) := by
      rw [trackerRun_consecFailures 3 t (initWorker nm u c wt ml)]
      exact foldl_cfStep_zero t
    rw [hinv, hcf, lastKAllFailures_iff]
    simp only [decide_eq_true_eq]
    constructor
    · intro h3; exact_mod_cast h3
    · intro h3; exact_mod_cast h3
  · intro w i hi
    have := trackerStep_consecFailures 3 w i
    rw [this]
    simp [cfStep, hi]

/-- Witness for C2 on the all-probe-failure trace of length 3. -/
theorem c2_circuit_iff_witness :
    realizableB 3 (initWorker "w1" "u" "c" 1 3)
      [TrackerInput.probeFail, TrackerInput.probeFail, TrackerInput.probeFail]
      = true ∧
    ((trackerRun 3 (initWorker "w1" "u" "c" 1 3)
      [TrackerInput.probeFail, TrackerInput.probeFail, TrackerInput.probeFail]).circuitOpen
        = true ↔
      lastKAllFailures 3
        [TrackerInput.probeFail, TrackerInput.probeFail, TrackerInput.probeFail]
        = true) :=
  ⟨by decide,
   (c2_circuit_iff "w1" "u" "c" 1 3
     [TrackerInput.probeFail, TrackerInput.probeFail, TrackerInput.probeFail]
     (by decide)).1⟩

/-- C2 is false as stated over unrestricted outcome sequences (and over real
interleavings: a forward in flight when three probe failures open the
circuit can still deliver its success afterwards): after three probe
failures followed by one forward success, the last outcome is a success and
`consecFailures` has been reset to 0, yet `circuitOpen` is still true. -/
theorem c2_counterexample :
    (trackerRun 3 (initWorker "w1" "u" "c" 1 3)
      [TrackerInput.probeFail, TrackerInput.probeFail, TrackerInput.probeFail,
        TrackerInput.forwardOk]).circuitOpen = true ∧
    lastKAllFailures 3
      [TrackerInput.probeFail, TrackerInput.probeFail, TrackerInput.probeFail,
        TrackerInput.forwardOk] = false ∧
    (trackerRun 3 (initWorker "w1" "u" "c" 1 3)
      [TrackerInput.probeFail, TrackerInput.probeFail, TrackerInput.probeFail,
        TrackerInput.forwardOk]).consecFailures = 0 := by
  decide

end LB

namespace LB

lemma lcGo_spec : ∀ (ws : List Worker) (pos : Nat) (sel : Option Nat) (m : Int),
    (lcGo ws pos sel m = sel ∧
      ∀ w' ∈ ws, eligible w' = true → m ≤ w'.currentLoad) ∨
    (∃ k w, ws[k]? = some w ∧ eligible w = true ∧ w.currentLoad < m ∧
      lcGo ws pos sel m = some (pos + k) ∧
      (∀ j w', j < k → ws[j]? = some w' → eligible w' = true →
        w.currentLoad < w'.currentLoad) ∧
      (∀ j w', k < j → ws[j]? = some w' → eligible w' = true →
        w.currentLoad ≤ w'.currentLoad)) := by
  intro ws
  induction ws with
  | nil => intro pos sel m; left; exact ⟨rfl, by simp⟩
  | cons w rest ih =>
    intro pos sel m
    by_cases hel : eligible w = true
    · by_cases hlt : w.currentLoad < m
      · have hrec : lcGo (w :: rest) pos sel m
            = lcGo rest (pos + 1) (some pos) w.currentLoad := by
          simp [lcGo, hel, hlt]
        rcases ih (pos + 1) (some pos) w.currentLoad with ⟨e1, e2⟩ |
          ⟨k, w2, hget, hel2, hlt2, heq, hbef, haft⟩
        · right
          refine ⟨0, w, by simp, hel, hlt, by rw [hrec, e1]; simp, ?_, ?_⟩
          · intro j w' hj
            omega
          · intro j w' hj hget' hel'
            match j with
            | j' + 1 =>
              exact e2 w' (mem_of_getElem_opt (by simpa using hget')) hel'
        · right
          refine ⟨k + 1, w2, by simpa using hget, hel2, by omega,
            by rw [hrec, heq]; congr 1; omega, ?_, ?_⟩
          · intro j w' hj hget' hel'
            match j with
            | 0 =>
              have hww : w = w' := by simpa using hget'
              subst hww
              exact hlt2
            | j' + 1 =>
              exact hbef j' w' (by omega) (by simpa using hget') hel'
          · intro j w' hj hget' hel'
            match j with
            | j' + 1 =>
              exact haft j' w' (by omega) (by simpa using hget') hel'
      · have hrec : lcGo (w :: rest) pos sel m
            = lcGo rest (pos + 1) sel m := by
          simp [lcGo, hel, hlt]
        rcases ih (pos + 1) sel m with ⟨e1, e2⟩ |
          ⟨k, w2, hget, hel2, hlt2, heq, hbef, haft⟩
        · left
          refine ⟨by rw [hrec, e1], ?_⟩
          intro w' hw' hel'
          rcases List.mem_cons.mp hw' with h0 | h1
          · subst h0; omega
          · exact e2 w' h1 hel'
        · right
          refine ⟨k + 1, w2, by simpa using hget, hel2, hlt2,
            by rw [hrec, heq]; congr 1; omega, ?_, ?_⟩
          · intro j w' hj hget' hel'
            match j with
            | 0 =>
              have hww : w = w' := by simpa using hget'
              subst hww
              omega
            | j' + 1 =>
              exact hbef j' w' (by omega) (by simpa using hget') hel'
          · intro j w' hj hget' hel'
            match j with
            | j' + 1 =>
              exact haft j' w' (by omega) (by simpa using hget') hel'
    · have hel' : eligible w = false := by
        cases h : eligible w
        · rfl
        · exact absurd h hel
      have hrec : lcGo (w :: rest) pos sel m
          = lcGo rest (pos + 1) sel m := by
        simp [lcGo, hel']
      rcases ih (pos + 1) sel m with ⟨e1, e2⟩ |
        ⟨k, w2, hget, hel2, hlt2, heq, hbef, haft⟩
      · left
        refine ⟨by rw [hrec, e1], ?_⟩
        intro w' hw' helw'
        rcases List.mem_cons.mp hw' with h0 | h1
        · subst h0; rw [hel'] at helw'; cases helw'
        · exact e2 w' h1 helw'
      · right
        refine ⟨k + 1, w2, by simpa using hget, hel2, hlt2,
          by rw [hrec, heq]; congr 1; omega, ?_, ?_⟩
        · intro j w' hj hget' helw'
          match j with
          | 0 =>
            have hww : w = w' := by simpa using hget'
            subst hww
            rw [hel'] at helw'
            cases helw'
          | j' + 1 =>
            exact hbef j' w' (by omega) (by simpa using hget') helw'
        · intro j w' hj hget' helw'
          match j with
          | j' + 1 =>
            exact haft j' w' (by omega) (by simpa using hget') helw'

/-- C6 (amended): provided at least one eligible worker has `currentLoad`
strictly below the `MaxInt64` sentinel (always true of real loads, which
count in-flight requests), `leastConnections` returns the worker whose
load, read in the same consistent view, is less than or equal to every
other eligible worker's load, and among the eligible workers of minimal
load it returns the first in registration order (every earlier eligible
worker has strictly greater load). -/
theorem c6_least_connections (ws : List Worker)
    (h : ∃ w ∈ ws, eligible w = true ∧ w.currentLoad < MAX_INT64) :
    ∃ k w, leastConnections ws = some k ∧ ws[k]? = some w ∧
      eligible w = true ∧
      (∀ w' ∈ ws, eligible w' = true → w.currentLoad ≤ w'.currentLoad) ∧
      (∀ j w', j < k → ws[j]? = some w' → eligible w' = true →
        w.currentLoad < w'.currentLoad) := by
  rcases lcGo_spec ws 0 none MAX_INT64 with ⟨_, e2⟩ |
    ⟨k, w, hget, hel, hlt, heq, hbef, haft⟩
  · obtain ⟨w0, hmem, hel0, hlt0⟩ := h
    have := e2 w0 hmem hel0
    omega
  · refine ⟨k, w, by simpa [leastConnections] using heq, hget, hel, ?_, hbef⟩
    intro w' hw' hel'
    obtain ⟨j, hj⟩ := List.getElem_of_mem hw'
    have hget' : ws[j]? = some w' := by
      rw [List.getElem?_eq_getElem hj.1]
      exact congrArg some hj.2
    rcases lt_trichotomy j k with hjk | hjk | hjk
    · exact le_of_lt (hbef j w' hjk hget' hel')
    · subst hjk
      rw [hget] at hget'
      have hww : w = w' := by injection hget'
      subst hww
      exact le_refl _
    · exact haft j w' hjk hget' hel'

/-- Workers used by the C6 witness: eligible loads 5, 1, and an ineligible
load 0. -/
def wsL : List Worker :=
  [{ initWorker "a" "u" "c" 1 3 with currentLoad := 5 },
   { initWorker "b" "u" "c" 1 3 with currentLoad := 1 },
   { initWorker "d" "u" "c" 1 3 with currentLoad := 0, enabled := false }]

/-- Witness for C6 on a concrete three-worker registry. -/
theorem c6_least_connections_witness :
    ∃ k w, leastConnections wsL = some k ∧ wsL[k]? = some w ∧
      eligible w = true ∧
      (∀ w' ∈ wsL, eligible w' = true → w.currentLoad ≤ w'.currentLoad) ∧
      (∀ j w', j < k → wsL[j]? = some w' → eligible w' = true →
        w.currentLoad < w'.currentLoad) :=
  c6_least_connections wsL (by decide)

/-- A single eligible worker whose load equals the `MaxInt64` sentinel. -/
def wMax : Worker := { initWorker "w1" "u" "c" 1 3 with currentLoad := MAX_INT64 }

/-- C6 is false as stated at the sentinel boundary: an eligible worker whose
`currentLoad` equals `MaxInt64` is never selected (the strict `<` against
the sentinel initial minimum fails), so `leastConnections` returns no
worker although an eligible one exists. -/
theorem c6_counterexample :
    eligible wMax = true ∧ leastConnections [wMax] = none := by
  decide

end LB

namespace LB

/-- The sequence of selections over `m` consecutive `/task` requests under
round-robin: each step runs `roundRobinSel` and threads the updated cursor. -/
def rrRun : LoadBalancer → Nat → List (Option Nat)
  | _, 0 => []
  | lb, m + 1 => (roundRobinSel lb).1 :: rrRun (roundRobinSel lb).2 m

lemma roundRobinScan_all_eligible (ws : List Worker) (s : Nat)
    (hall : ∀ w ∈ ws, eligible w = true) (hn : 0 < ws.length) :
    roundRobinScan ws s = some (s % ws.length) := by
  obtain ⟨m, hm⟩ : ∃ m, ws.length = m + 1 := ⟨ws.length - 1, by omega⟩
  have hrange : List.range ws.length = 0 :: List.map Nat.succ (List.range m) := by
    rw [hm, List.range_succ_eq_map]
  unfold roundRobinScan
  rw [hrange, List.findSome?_cons]
  have hlt : s % ws.length < ws.length := Nat.mod_lt s hn
  simp only [Nat.add_zero]
  rw [List.getElem?_eq_getElem hlt]
  simp [hall _ (List.getElem_mem hlt)]

lemma rrRun_all_eligible : ∀ (m : Nat) (lb : LoadBalancer),
    (∀ w ∈ lb.workers, eligible w = true) → 0 < lb.workers.length →
    lb.roundRobinIdx + m < UINT64_MOD →
    rrRun lb m = (List.range m).map
      (fun t => some ((lb.roundRobinIdx + 1 + t) % lb.workers.length)) := by
  intro m
  induction m with
  | zero => intro lb _ _ _; rfl
  | succ m ih =>
    intro lb hall hn hm
    have hc1 : (lb.roundRobinIdx + 1) % UINT64_MOD = lb.roundRobinIdx + 1 :=
      Nat.mod_eq_of_lt (by omega)
    have hsel1 : (roundRobinSel lb).1
        = some ((lb.roundRobinIdx + 1) % lb.workers.length) := by
      simp only [roundRobinSel, hc1]
      exact roundRobinScan_all_eligible lb.workers (lb.roundRobinIdx + 1) hall hn
    have hsel2 : (roundRobinSel lb).2
        = { lb with roundRobinIdx := lb.roundRobinIdx + 1 } := by
      simp only [roundRobinSel, hc1]
    have hbound : ({ lb with roundRobinIdx := lb.roundRobinIdx + 1 }
        : LoadBalancer).roundRobinIdx + m < UINT64_MOD := by
      show lb.roundRobinIdx + 1 + m < UINT64_MOD
      omega
    show (roundRobinSel lb).1 :: rrRun (roundRobinSel lb).2 m = _
    rw [hsel1, hsel2,
      ih { lb with roundRobinIdx := lb.roundRobinIdx + 1 } hall hn hbound]
    show some ((lb.roundRobinIdx + 1) % lb.workers.length)
        :: (List.range m).map
          (fun t => some ((lb.roundRobinIdx + 1 + 1 + t) % lb.workers.length))
      = (List.range (m + 1)).map
          (fun t => some ((lb.roundRobinIdx + 1 + t) % lb.workers.length))
    rw [List.range_succ_eq_map, List.map_cons, List.map_map]
    have hfe : ((fun t => some ((lb.roundRobinIdx + 1 + t) % lb.workers.length))
          ∘ Nat.succ)
        = fun t => some ((lb.roundRobinIdx + 1 + 1 + t) % lb.workers.length) := by
      funext t
      simp only [Function.comp_apply]
      have harg : lb.roundRobinIdx + 1 + Nat.succ t
          = lb.roundRobinIdx + 1 + 1 + t := by omega
      rw [harg]
    rw [hfe]

lemma count_mod_range (n s j : Nat) (hn : 0 < n) (hj : j < n) :
    ((List.range n).map (fun t => (s + t) % n)).count j = 1 := by
  apply List.count_eq_one_of_mem
  · refine List.Nodup.map_on ?_ (List.nodup_range n)
    intro x hx y hy hxy
    rw [List.mem_range] at hx hy
    have hcanc : x % n = y % n := Nat.ModEq.add_left_cancel' s hxy
    rwa [Nat.mod_eq_of_lt hx, Nat.mod_eq_of_lt hy] at hcanc
  · have hsn : s % n < n := Nat.mod_lt s hn
    refine List.mem_map.mpr
      ⟨(n + j - s % n) % n, List.mem_range.mpr (Nat.mod_lt _ hn), ?_⟩
    rw [Nat.add_mod_mod]
    have h2 : s + (n + j - s % n) = j + n * (s / n + 1) := by
      have hdm := Nat.div_add_mod s n
      have hmul : n * (s / n + 1) = n * (s / n) + n := by ring
      omega
    rw [h2, Nat.add_mul_mod_self_left, Nat.mod_eq_of_lt hj]

lemma count_some_map (l : List Nat) (j : Nat) :
    (l.map some).count (some j) = l.count j := by
  induction l with
  | nil => rfl
  | cons a l ih => simp [List.count_cons, ih]

lemma count_mod_range_mul : ∀ (k n s j : Nat), 0 < n → j < n →
    ((List.range (k * n)).map (fun t => (s + t) % n)).count j = k := by
  intro k
  induction k with
  | zero => intro n s j _ _; simp
  | succ k ih =>
    intro n s j hn hj
    have hkn : (k + 1) * n = n + k * n := by ring
    rw [hkn, List.range_add, List.map_append, List.count_append,
      count_mod_range n s j hn hj, List.map_map]
    have hfe : ((fun t => (s + t) % n) ∘ fun x => n + x)
        = fun t => (s + t) % n := by
      funext t
      simp only [Function.comp_apply]
      have hre : s + (n + t) = s + t + n := by ring
      rw [hre, Nat.add_mod_right]
    rw [hfe, ih n s j hn hj]
    omega

/-- C4 (amended): under round-robin with every registered worker eligible
throughout, any window of `k * N` consecutive selections in which the
64-bit cursor does not wrap around (i.e. the window stays within one
`2^64` period — violated only after `2^64` total selections) returns each
worker exactly `k` times; with `k = 1`, each worker exactly once per `N`
consecutive selections. -/
theorem c4_round_robin_fairness (lb : LoadBalancer) (k j : Nat)
    (h1 : ∀ w ∈ lb.workers, eligible w = true)
    (h2 : 0 < lb.workers.length)
    (h3 : lb.roundRobinIdx + k * lb.workers.length < UINT64_MOD)
    (h4 : j < lb.workers.length) :
    (rrRun lb (k * lb.workers.length)).count (some j) = k := by
  rw [rrRun_all_eligible (k * lb.workers.length) lb h1 h2 h3]
  have hsplit : (fun t => some ((lb.roundRobinIdx + 1 + t) % lb.workers.length))
      = some ∘ (fun t => (lb.roundRobinIdx + 1 + t) % lb.workers.length) := rfl
  rw [hsplit, ← List.map_map, count_some_map]
  exact count_mod_range_mul k lb.workers.length (lb.roundRobinIdx + 1) j h2 h4

/-- Three eligible workers with the cursor at its initial value. -/
def lb3 : LoadBalancer :=
  { workers := [initWorker "a" "u" "c" 1 3, initWorker "b" "u" "c" 1 3,
                initWorker "d" "u" "c" 1 3],
    algorithm := "round-robin", roundRobinIdx := 0, circuitThreshold := 3 }

/-- Witness for C4: one full window over three eligible workers. -/
theorem c4_round_robin_fairness_witness :
    (rrRun lb3 (1 * lb3.workers.length)).count (some 0) = 1 :=
  c4_round_robin_fairness lb3 1 0 (by decide) (by decide) (by decide) (by decide)

/-- Three eligible workers with the cursor three steps before the `uint64`
wrap. -/
def lbWrap : LoadBalancer :=
  { workers := [initWorker "a" "u" "c" 1 3, initWorker "b" "u" "c" 1 3,
                initWorker "d" "u" "c" 1 3],
    algorithm := "round-robin", roundRobinIdx := UINT64_MOD - 3,
    circuitThreshold := 3 }

/-- C4 is false as stated for a window that crosses the `uint64` cursor
wrap: with three eligible workers and the cursor at `2^64 - 3`, the next
window of three selections picks worker 0 twice and worker 1 never (since
`3` does not divide `2^64`, the residues are not consecutive across the
wrap). -/
theorem c4_counterexample :
    (∀ w ∈ lbWrap.workers, eligible w = true) ∧
    lbWrap.workers.length = 3 ∧
    (rrRun lbWrap 3).count (some 1) = 0 ∧
    (rrRun lbWrap 3).count (some 0) = 2 := by
  decide

end LB
